import Mathlib

/-!
Verification development for the pyShares SMB share scanner.

This file shallowly embeds the scan engine of the repository
(`pattern_matcher.py`, `scanner.py`, `db_helper.py`, `ldap_helper.py`)
into Lean 4 and proves properties of the embedded definitions.
Python strings are modelled as `String`/`List Char`, machine-level
exceptions as explicit `Except`/oracle values, and wall-clock events
(timeouts, the cancellation event) as boolean oracles indexed by an
abstract step counter.
-/

namespace PyShares

/-! ## String helpers

`hasSub hay needle` models Python's `needle in hay` substring test.
`pyTrunc n s` models Python's slice `s[:n]` (by code points).
`splitSep cs` models Python's `path.split('/')` (`os.sep` on the
deployment platform), and `pathJoin` models `os.path.join(path, name)`
for a relative, separator-free `name`.
-/

def hasSub : List Char → List Char → Bool
  | hay, needle =>
    needle.isPrefixOf hay ||
      match hay with
      | [] => false
      | _ :: t => hasSub t needle

/-- Python's `needle in hay` on strings. -/
def strContains (hay needle : String) : Bool :=
  hasSub hay.data needle.data

/-- Python's `s[:n]` (slicing by code points). -/
def pyTrunc (n : Nat) (s : String) : String :=
  ⟨s.data.take n⟩

theorem pyTrunc_length_le (n : Nat) (s : String) : (pyTrunc n s).length ≤ n :=
  List.length_take_le n s.data

/-- Python's `str.split('/')`: `"".split('/') = [""]`, `"a/b".split('/') = ["a","b"]`. -/
def splitSep : List Char → List (List Char)
  | [] => [[]]
  | c :: rest =>
    if c = '/' then [] :: splitSep rest
    else
      match splitSep rest with
      | [] => [[c]]
      | g :: gs => (c :: g) :: gs

theorem splitSep_ne_nil (cs : List Char) : splitSep cs ≠ [] := by
  induction cs with
  | nil => simp [splitSep]
  | cons c rest ih =>
    simp only [splitSep]
    split
    · simp
    · cases h : splitSep rest with
      | nil => simp
      | cons g gs => simp

theorem splitSep_no_sep (cs : List Char) (h : '/' ∉ cs) : splitSep cs = [cs] := by
  induction cs with
  | nil => rfl
  | cons c rest ih =>
    simp only [List.mem_cons, not_or] at h
    have hc : ¬ c = '/' := fun hc => h.1 hc.symm
    simp only [splitSep, if_neg hc, ih h.2]

theorem splitSep_append_sep (p n : List Char) (h : '/' ∉ n) :
    splitSep (p ++ '/' :: n) = splitSep p ++ [n] := by
  induction p with
  | nil => simp [splitSep, splitSep_no_sep n h]
  | cons c rest ih =>
    by_cases hc : c = '/'
    · simp [splitSep, hc, ih]
    · simp only [List.cons_append, splitSep, if_neg hc, List.append_eq]
      rw [ih]
      cases hsp : splitSep rest with
      | nil => exact absurd hsp (splitSep_ne_nil rest)
      | cons g gs => simp

/-- `len(path.split(os.sep))` from `scanner.py` (`current_depth`). -/
def pathDepth (path : String) : Nat :=
  (splitSep path.data).length

/-- `os.path.join(path, name)` for the relative names produced by SMB listings. -/
def pathJoin (path name : String) : String :=
  if path = "" then name else path ++ "/" ++ name

/-- Number of separators in a path; a file nested below `k` directories of the
share root has exactly `k` separators in its accumulated path. -/
def slashCount (s : String) : Nat :=
  s.data.count '/'

theorem pathDepth_empty : pathDepth "" = 1 := rfl

theorem string_data_append (a b : String) : (a ++ b).data = a.data ++ b.data := rfl

theorem pathDepth_join (p n : String) (hp : p ≠ "") (hn : '/' ∉ n.data) :
    pathDepth (pathJoin p n) = pathDepth p + 1 := by
  have : (p ++ "/" ++ n).data = p.data ++ '/' :: n.data := by
    simp [string_data_append]
  simp only [pathDepth, pathJoin, if_neg hp, this, splitSep_append_sep p.data n.data hn,
    List.length_append, List.length_singleton]

theorem pathDepth_single (n : String) (hn : '/' ∉ n.data) : pathDepth n = 1 := by
  simp [pathDepth, splitSep_no_sep n.data hn]

theorem pathJoin_ne_empty (p n : String) (hp : p ≠ "") : pathJoin p n ≠ "" := by
  simp only [pathJoin, if_neg hp]
  intro h
  have : (p ++ "/" ++ n).data = p.data ++ '/' :: n.data := by simp [string_data_append]
  have h2 : (p.data ++ '/' :: n.data : List Char) = [] := by
    rw [← this, h]
  simp at h2

theorem slashCount_join (p n : String) (hp : p ≠ "") (hn : '/' ∉ n.data) :
    slashCount (pathJoin p n) = slashCount p + 1 := by
  have hd : (p ++ "/" ++ n).data = p.data ++ '/' :: n.data := by simp [string_data_append]
  have hcn : n.data.count '/' = 0 := List.count_eq_zero.mpr hn
  simp [slashCount, pathJoin, if_neg hp, hd, List.count_cons, hcn]

theorem slashCount_join_root (n : String) (hn : '/' ∉ n.data) :
    slashCount (pathJoin "" n) = 0 := by
  simp [slashCount, pathJoin, List.count_eq_zero.mpr hn]

/-! ## Regular expressions

A small regex AST covering exactly the constructs used by the pattern
table in `pattern_matcher.py`: literal characters, `.` (any char),
`.*`, concatenation, alternation, optionality (encoded via `alt _ emp`),
and the end anchor `$`.  Matching is Brzozowski-derivative style and
structurally recursive on the input, so that concrete matches evaluate
by `decide`.  `reSearch` is Python's `re.search` (match anywhere);
case-insensitivity (`re.IGNORECASE`) is modelled by lowercasing the
input, the patterns being lowercase already.
-/

inductive RE where
  | emp : RE
  | fail : RE
  | chr : Char → RE
  | dot : RE
  | dotStar : RE
  | eos : RE
  | seq : RE → RE → RE
  | alt : RE → RE → RE
deriving DecidableEq, Repr

/-- Can `r` match the empty string at the current position?
`atEnd` records whether the position is the end of the input
(relevant only for the `$` anchor). -/
def emptyMatch : RE → Bool → Bool
  | .emp, _ => true
  | .fail, _ => false
  | .chr _, _ => false
  | .dot, _ => false
  | .dotStar, _ => true
  | .eos, atEnd => atEnd
  | .seq a b, e => emptyMatch a e && emptyMatch b e
  | .alt a b, e => emptyMatch a e || emptyMatch b e

/-- Brzozowski derivative: the residual pattern after consuming `c`
at a non-final position. -/
def deriv (c : Char) : RE → RE
  | .emp => .fail
  | .fail => .fail
  | .chr d => if d = c then .emp else .fail
  | .dot => .emp
  | .dotStar => .dotStar
  | .eos => .fail
  | .seq a b => .alt (.seq (deriv c a) b) (if emptyMatch a false then deriv c b else .fail)
  | .alt a b => .alt (deriv c a) (deriv c b)

/-- Does `r` match some prefix of `s` (with `$` referring to the true end of `s`)? -/
def matchHere : RE → List Char → Bool
  | r, [] => emptyMatch r true
  | r, c :: t => emptyMatch r false || matchHere (deriv c r) t

/-- Python's `re.search`: does `r` match anywhere inside `s`? -/
def reSearch : RE → List Char → Bool
  | r, [] => matchHere r []
  | r, c :: t => matchHere r (c :: t) || reSearch r t

theorem matchHere_alt (a b : RE) (s : List Char) :
    matchHere (.alt a b) s = (matchHere a s || matchHere b s) := by
  induction s generalizing a b with
  | nil => simp [matchHere, emptyMatch]
  | cons c t ih =>
    simp only [matchHere, deriv, emptyMatch, ih]
    cases emptyMatch a false <;> cases emptyMatch b false <;>
      cases matchHere (deriv c a) t <;> cases matchHere (deriv c b) t <;> rfl

theorem reSearch_alt (a b : RE) (s : List Char) :
    reSearch (.alt a b) s = (reSearch a s || reSearch b s) := by
  induction s with
  | nil => simp [reSearch, matchHere_alt]
  | cons c t ih =>
    simp only [reSearch, matchHere_alt, ih]
    cases matchHere a (c :: t) <;> cases matchHere b (c :: t) <;>
      cases reSearch a t <;> cases reSearch b t <;> rfl

theorem matchHere_fail (s : List Char) : matchHere .fail s = false := by
  induction s with
  | nil => rfl
  | cons c t ih => simpa [matchHere, deriv, emptyMatch] using ih

theorem reSearch_fail (s : List Char) : reSearch .fail s = false := by
  induction s with
  | nil => rfl
  | cons c t ih => simp [reSearch, matchHere_fail, ih]

/-! ## Pattern matcher (`pattern_matcher.py`)

`compiled_patterns` transcribes the 19 regex patterns of
`PatternMatcher.__init__` into the `RE` AST; `combined_pattern` models
the `'|'.join(f'({p.pattern})')` alternation (grouping and the exact
associativity of `|` do not affect match semantics; the alternation is
folded with a never-matching unit).  `check_filename` is
`PatternMatcher.check_filename`.
-/

/-- A literal string as a regex (concatenation of its characters). -/
def strRE (s : String) : RE :=
  s.data.foldr (fun c r => .seq (.chr c) r) .emp

/-- `(...)?`: an optional sub-pattern. -/
def optRE (r : RE) : RE := .alt r .emp

/-- A literal string anchored at the end (`\.ext$` patterns). -/
def extRE (s : String) : RE :=
  s.data.foldr (fun c r => .seq (.chr c) r) .eos

structure CompiledPattern where
  pattern : RE
  type : String
  description : String
deriving DecidableEq, Repr

/-- The pattern table of `PatternMatcher.__init__`, in source order. -/
def compiled_patterns : List CompiledPattern := [
  -- r"pass(word|wd)?|secret|credential"
  ⟨.alt (.seq (strRE "pass") (optRE (.alt (strRE "word") (strRE "wd"))))
     (.alt (strRE "secret") (strRE "credential")), "credential", "Credential-related file"⟩,
  -- r"ssn"
  ⟨strRE "ssn", "pii", "Social Security Number related"⟩,
  -- r"social.*security"
  ⟨.seq (strRE "social") (.seq .dotStar (strRE "security")), "pii", "Social Security related"⟩,
  -- r"account.*number"
  ⟨.seq (strRE "account") (.seq .dotStar (strRE "number")), "financial", "Account number related"⟩,
  -- r"credit.*card"
  ⟨.seq (strRE "credit") (.seq .dotStar (strRE "card")), "financial", "Credit card related"⟩,
  -- r"bank"
  ⟨strRE "bank", "financial", "Banking related"⟩,
  -- r"confidential"
  ⟨strRE "confidential", "sensitive", "Confidential marked"⟩,
  -- r"private"
  ⟨strRE "private", "sensitive", "Private marked"⟩,
  -- r"restricted"
  ⟨strRE "restricted", "sensitive", "Restricted marked"⟩,
  -- r"salary"
  ⟨strRE "salary", "hr", "Salary information"⟩,
  -- r"employee"
  ⟨strRE "employee", "hr", "Employee information"⟩,
  -- r"payroll"
  ⟨strRE "payroll", "financial", "Payroll information"⟩,
  -- r"tax"
  ⟨strRE "tax", "financial", "Tax information"⟩,
  -- r"\.key$"
  ⟨extRE ".key", "security", "Key file"⟩,
  -- r"\.pem$"
  ⟨extRE ".pem", "security", "PEM certificate"⟩,
  -- r"\.pfx$"
  ⟨extRE ".pfx", "security", "PFX certificate"⟩,
  -- r"\.p12$"
  ⟨extRE ".p12", "security", "P12 certificate"⟩,
  -- r"\.kdb$"
  ⟨extRE ".kdb", "security", "KeePass database"⟩,
  -- r"\.kdbx$"
  ⟨extRE ".kdbx", "security", "KeePass database"⟩]

/-- The combined early-out alternation. -/
def combined_pattern : RE :=
  (compiled_patterns.map (·.pattern)).foldr .alt .fail

/-- `re.IGNORECASE` is modelled by lowercasing the input; the patterns are
all lowercase ASCII. -/
def lowerData (s : String) : List Char :=
  s.data.map Char.toLower

/-- `PatternMatcher.check_filename`. -/
def check_filename (filename : String) : List (String × String) :=
  let s := lowerData filename
  if reSearch combined_pattern s then
    (compiled_patterns.filter (fun p => reSearch p.pattern s)).map
      (fun p => (p.type, p.description))
  else []

theorem reSearch_foldr_alt (l : List RE) (s : List Char) :
    reSearch (l.foldr .alt .fail) s = l.any (fun r => reSearch r s) := by
  induction l with
  | nil => simp [reSearch_fail]
  | cons r rest ih => simp [reSearch_alt, ih]

theorem any_map_pattern (l : List CompiledPattern) (s : List Char) :
    (l.map (·.pattern)).any (fun r => reSearch r s) =
      l.any (fun p => reSearch p.pattern s) := by
  induction l with
  | nil => rfl
  | cons p rest ih => simp [ih]

theorem reSearch_combined (s : List Char) :
    reSearch combined_pattern s = compiled_patterns.any (fun p => reSearch p.pattern s) := by
  rw [combined_pattern, reSearch_foldr_alt, any_map_pattern]

example : check_filename "Passwords.TXT" = [("credential", "Credential-related file")] := by decide

example : check_filename "key.pem" = [("security", "PEM certificate")] := by decide

example : check_filename "key.pemx" = [] := by decide

example : check_filename "README.md" = [] := by decide

example : check_filename "ssn_tax.key" =
    [("pii", "Social Security Number related"), ("financial", "Tax information"),
     ("security", "Key file")] := by decide

/-- Claim C2: `check_filename` returns every distinct pattern category whose
regex matches the filename (case-insensitively, anywhere in the string, as a
`(category, description)` pair), returns the empty sequence when no pattern
matches, and the combined-alternation pre-filter never causes a matching
category to be omitted from the result. -/
theorem check_filename_spec (filename : String) :
    (∀ td : String × String, td ∈ check_filename filename ↔
      ∃ p, p ∈ compiled_patterns ∧ reSearch p.pattern (lowerData filename) = true ∧
        td = (p.type, p.description)) ∧
    (check_filename filename = [] ↔
      ∀ p ∈ compiled_patterns, reSearch p.pattern (lowerData filename) = false) := by
  by_cases hcomb : reSearch combined_pattern (lowerData filename) = true
  · have hany : compiled_patterns.any
        (fun p => reSearch p.pattern (lowerData filename)) = true := by
      rw [← reSearch_combined]; exact hcomb
    have hck : check_filename filename =
        (compiled_patterns.filter (fun p => reSearch p.pattern (lowerData filename))).map
          (fun p => (p.type, p.description)) := by
      simp only [check_filename, hcomb, if_true]
    obtain ⟨p0, hp0, hm0⟩ := List.any_eq_true.mp hany
    constructor
    · intro td
      rw [hck]
      simp only [List.mem_map, List.mem_filter]
      constructor
      · rintro ⟨p, ⟨hp, hm⟩, rfl⟩
        exact ⟨p, hp, hm, rfl⟩
      · rintro ⟨p, hp, hm, rfl⟩
        exact ⟨p, ⟨hp, hm⟩, rfl⟩
    · constructor
      · intro hnil
        rw [hck] at hnil
        have hfil := List.map_eq_nil_iff.mp hnil
        have := List.filter_eq_nil_iff.mp hfil p0 hp0
        simp [hm0] at this
      · intro hall
        have := hall p0 hp0
        simp [hm0] at this
  · have hfalse : reSearch combined_pattern (lowerData filename) = false :=
      Bool.not_eq_true _ ▸ Bool.of_not_eq_true hcomb
    have hanyf : compiled_patterns.any
        (fun p => reSearch p.pattern (lowerData filename)) = false := by
      rw [← reSearch_combined]; exact hfalse
    have hall : ∀ p ∈ compiled_patterns,
        reSearch p.pattern (lowerData filename) = false := by
      intro p hp
      by_contra hne
      have hm : reSearch p.pattern (lowerData filename) = true :=
        Bool.of_not_eq_false hne
      have : compiled_patterns.any
          (fun p => reSearch p.pattern (lowerData filename)) = true :=
        List.any_eq_true.mpr ⟨p, hp, hm⟩
      rw [hanyf] at this
      exact Bool.false_ne_true this
    have hck : check_filename filename = [] := by
      simp only [check_filename, hfalse]
      rfl
    refine ⟨fun td => ?_, ⟨fun _ => hall, fun _ => hck⟩⟩
    rw [hck]
    simp only [List.not_mem_nil, false_iff]
    rintro ⟨p, hp, hm, rfl⟩
    rw [hall p hp] at hm
    exact Bool.false_ne_true hm

/-! ## Access-level probe (`ShareScanner.determine_access_level`)

The outcomes of the three SMB calls (`listPath`, `createFile`,
`deleteFile`) are environment inputs: each either succeeds or raises an
impacket `SessionError` or some other exception, both carrying a message
(`str(e)`).  The function body is translated with its `try/except`
structure made explicit; a propagated exception would show up as an
`Except.error`, so totality is expressible.
-/

inductive ShareAccess where
  | FULL_ACCESS
  | READ_ONLY
  | DENIED
  | ERROR
deriving DecidableEq, Repr

/-- `ShareAccess.value` strings from the `Enum` in `scanner.py`. -/
def ShareAccess.value : ShareAccess → String
  | .FULL_ACCESS => "Full Access"
  | .READ_ONLY => "Read Only"
  | .DENIED => "Access Denied"
  | .ERROR => "Error"

/-- An exception raised by an SMB operation: a `SessionError` or any other
exception, with its `str(..)` text. -/
inductive SMBExc where
  | session : String → SMBExc
  | other : String → SMBExc
deriving DecidableEq, Repr

/-- The body of the outer `try`: `listPath`, then the inner
`try createFile/deleteFile except SessionError → READ_ONLY`.
Non-`SessionError` exceptions of the inner block propagate. -/
def determine_access_level_body (lp cr dl : Except SMBExc Unit) :
    Except SMBExc (ShareAccess × Option String) :=
  match lp with
  | .error e => .error e
  | .ok _ =>
    match (do _ ← cr; dl : Except SMBExc Unit) with
    | .ok _ => .ok (.FULL_ACCESS, none)
    | .error (.session _) => .ok (.READ_ONLY, none)
    | .error e => .error e

/-- `ShareScanner.determine_access_level`: the outer handlers
(`except SessionError` with the `STATUS_ACCESS_DENIED` test, then
`except Exception`) wrap the body. -/
def determine_access_level (lp cr dl : Except SMBExc Unit) :
    Except SMBExc (ShareAccess × Option String) :=
  match determine_access_level_body lp cr dl with
  | .ok r => .ok r
  | .error (.session m) =>
    if strContains m "STATUS_ACCESS_DENIED" then .ok (.DENIED, some m)
    else .ok (.ERROR, some m)
  | .error (.other m) => .ok (.ERROR, some m)

/-- Claim C1: the access-level probe classifies as specified: listing failure
with an access-denied status gives `DENIED` with the status text, any other
listing failure gives `ERROR` with the message, a successful listing followed
by a successful create/delete of the probe file gives `FULL_ACCESS`, and a
`SessionError` on the create or the delete gives `READ_ONLY`. -/
theorem determine_access_level_spec (m : String) (cr dl : Except SMBExc Unit) :
    (determine_access_level (.ok ()) (.ok ()) (.ok ()) =
      .ok (ShareAccess.FULL_ACCESS, none)) ∧
    (determine_access_level (.ok ()) (.error (.session m)) dl =
      .ok (ShareAccess.READ_ONLY, none)) ∧
    (determine_access_level (.ok ()) (.ok ()) (.error (.session m)) =
      .ok (ShareAccess.READ_ONLY, none)) ∧
    (strContains m "STATUS_ACCESS_DENIED" = true →
      determine_access_level (.error (.session m)) cr dl =
        .ok (ShareAccess.DENIED, some m)) ∧
    (strContains m "STATUS_ACCESS_DENIED" = false →
      determine_access_level (.error (.session m)) cr dl =
        .ok (ShareAccess.ERROR, some m)) ∧
    (determine_access_level (.error (.other m)) cr dl =
      .ok (ShareAccess.ERROR, some m)) := by
  refine ⟨rfl, rfl, rfl, fun h => ?_, fun h => ?_, rfl⟩
  · simp [determine_access_level, determine_access_level_body, h]
  · simp [determine_access_level, determine_access_level_body, h]

theorem determine_access_level_spec_witness :
    determine_access_level (.error (.session "STATUS_ACCESS_DENIED({Access Denied} ...)"))
        (.ok ()) (.ok ()) = .ok (ShareAccess.DENIED,
          some "STATUS_ACCESS_DENIED({Access Denied} ...)") ∧
    determine_access_level (.error (.session "STATUS_BAD_NETWORK_NAME"))
        (.ok ()) (.ok ()) = .ok (ShareAccess.ERROR, some "STATUS_BAD_NETWORK_NAME") := by
  refine ⟨(determine_access_level_spec _ (.ok ()) (.ok ())).2.2.2.1 (by decide),
    (determine_access_level_spec _ (.ok ()) (.ok ())).2.2.2.2.1 (by decide)⟩

/-- Claim C10: `determine_access_level` is total over all outcomes of the
underlying SMB calls: it always returns an access level paired with an
optional message (never propagating an exception), and a non-session
exception from any of the three calls yields `ERROR` with that exception's
text. -/
theorem determine_access_level_total (lp cr dl : Except SMBExc Unit) (m : String) :
    (∃ r : ShareAccess × Option String, determine_access_level lp cr dl = .ok r) ∧
    determine_access_level (.error (.other m)) cr dl =
      .ok (ShareAccess.ERROR, some m) ∧
    determine_access_level (.ok ()) (.error (.other m)) dl =
      .ok (ShareAccess.ERROR, some m) ∧
    determine_access_level (.ok ()) (.ok ()) (.error (.other m)) =
      .ok (ShareAccess.ERROR, some m) := by
  refine ⟨?_, rfl, rfl, rfl⟩
  unfold determine_access_level
  cases hb : determine_access_level_body lp cr dl with
  | ok r => exact ⟨r, rfl⟩
  | error e =>
    cases e with
    | session msg =>
      by_cases h : strContains msg "STATUS_ACCESS_DENIED" = true
      · exact ⟨(.DENIED, some msg), by simp [h]⟩
      · exact ⟨(.ERROR, some msg), by simp [Bool.of_not_eq_true h]⟩
    | other msg => exact ⟨(.ERROR, some msg), rfl⟩

/-! ## Root inventory (`get_file_attributes`, `scan_share_root`)

SMB directory entries carry an attribute bitmask; impacket's accessors
`is_directory()` / `is_readonly()` test the corresponding bits.  The
constants below are the ones declared at the top of `scanner.py`.
Timestamps are modelled as already-formatted optional strings (the
`try/except` around timestamp conversion yields `None` on failure).
-/

def ATTR_READONLY : Nat := 0x1
def ATTR_HIDDEN : Nat := 0x2
def ATTR_DIRECTORY : Nat := 0x10

structure SMBFileData where
  longname : String
  attribs : Nat
  filesize : Nat
  ctime : Option String
  mtime : Option String
deriving DecidableEq, Repr

def SMBFileData.is_directory (fd : SMBFileData) : Bool :=
  fd.attribs &&& ATTR_DIRECTORY != 0

def SMBFileData.is_readonly (fd : SMBFileData) : Bool :=
  fd.attribs &&& ATTR_READONLY != 0

/-- The dict built by `ShareScanner.get_file_attributes`. -/
structure FileInfo where
  name : String
  type : String
  size : Nat
  attributes : List String
  created : Option String
  modified : Option String
deriving DecidableEq, Repr

/-- `ShareScanner.get_file_attributes`: note that only `'DIR'` and
`'READ_ONLY'` are ever appended to the attribute list. -/
def get_file_attributes (fd : SMBFileData) : FileInfo :=
  let attrs := (if fd.is_directory then ["DIR"] else []) ++
    (if fd.is_readonly then ["READ_ONLY"] else [])
  { name := fd.longname
    type := if attrs.contains "DIR" then "Directory" else "File"
    size := fd.filesize
    attributes := attrs
    created := fd.ctime
    modified := fd.mtime }

structure RootScan where
  root_listing : List FileInfo
  total_files : Nat
  total_dirs : Nat
  hidden_files : Nat
deriving DecidableEq, Repr

/-- The enumeration loop of `ShareScanner.scan_share_root`. -/
def scan_share_root_loop : List SMBFileData → List FileInfo × Nat × Nat × Nat
  | [] => ([], 0, 0, 0)
  | fd :: rest =>
    if fd.longname = "." ∨ fd.longname = ".." then scan_share_root_loop rest
    else
      let fi := get_file_attributes fd
      let (l, tf, td, hf) := scan_share_root_loop rest
      (fi :: l,
        if fi.type = "Directory" then tf else tf + 1,
        if fi.type = "Directory" then td + 1 else td,
        if fi.attributes.contains "HIDDEN" then hf + 1 else hf)

/-- `ShareScanner.scan_share_root`: full-root counts, listing truncated to
the first 20 entries (`root_listing[:20]`). -/
def scan_share_root (listing : List SMBFileData) : RootScan :=
  let (l, tf, td, hf) := scan_share_root_loop listing
  ⟨l.take 20, tf, td, hf⟩

/-- Modelled from the spec's words: the number of root entries (excluding
`.` and `..`) whose attribute flags include the hidden flag. -/
def specHiddenCount (listing : List SMBFileData) : Nat :=
  (listing.filter (fun fd =>
    !(fd.longname = "." || fd.longname = "..") &&
      (fd.attribs &&& ATTR_HIDDEN != 0))).length

theorem get_file_attributes_no_hidden (fd : SMBFileData) :
    (get_file_attributes fd).attributes.contains "HIDDEN" = false := by
  unfold get_file_attributes
  cases fd.is_directory <;> cases fd.is_readonly <;> rfl

/-- Claim C9 (refuted by the code): `hidden_files` is `0` for every root
listing, because `get_file_attributes` never emits the string `'HIDDEN'`
that `scan_share_root` tests for (the declared `ATTR_HIDDEN` bit is never
consulted).  In particular a root listing with a single hidden-flagged
entry yields `hidden_files = 0` while the number of hidden-flagged entries
is `1`. -/
theorem scan_share_root_hidden_zero :
    (∀ listing : List SMBFileData, (scan_share_root listing).hidden_files = 0) ∧
    (scan_share_root [⟨"secret.txt", 0x2, 10, none, none⟩]).hidden_files = 0 ∧
    specHiddenCount [⟨"secret.txt", 0x2, 10, none, none⟩] = 1 := by
  have hloop : ∀ listing : List SMBFileData,
      (scan_share_root_loop listing).2.2.2 = 0 := by
    intro listing
    induction listing with
    | nil => rfl
    | cons fd rest ih =>
      simp only [scan_share_root_loop]
      split
      · exact ih
      · simp only [get_file_attributes_no_hidden fd]
        rcases h : scan_share_root_loop rest with ⟨l, tf, td, hf⟩
        rw [h] at ih
        simpa using ih
  refine ⟨fun listing => ?_, ?_, by decide⟩
  · have := hloop listing
    unfold scan_share_root
    rcases h : scan_share_root_loop listing with ⟨l, tf, td, hf⟩
    rw [h] at this
    simpa using this
  · decide

/-! ## Recursive sensitive walk (`ShareScanner.scan_share_for_sensitive`)

A share's directory tree is modelled as a first-order listing: `FS.nil`
ends a listing, `FS.file`/`FS.dir` are the entries in enumeration order,
a `dir` carrying its own child listing.  This flat encoding keeps every
recursion structural, so concrete walks evaluate by `decide`.

The cancellation event (`self._cancel_event`) is a boolean oracle
`cancel : Nat → Bool` read at an abstract step counter: one tick per
`is_set()` check, exactly at the checks the source performs (function
entry, and once per listed entry).  A raised cancellation exception is
`Except.error ()`; the source re-raises it past the generic
`except Exception` handler (with `ScanCancelled` undefined the raise
produces a `NameError`, which likewise propagates), so in the model it
propagates to the caller.  `listPath` itself is assumed to succeed on
the modelled tree; the generic handler for listing errors is therefore
never reached and is not modelled.
-/

inductive FS where
  | nil : FS
  | file : String → FS → FS
  | dir : String → FS → FS → FS
deriving DecidableEq, Repr

/-- One `SensitiveFile` dict appended by the walk. -/
structure SFile where
  path : String
  filename : String
  type : String
  description : String
deriving DecidableEq, Repr

/-- The `SensitiveFile` dicts produced for one matched filename. -/
def fileMatches (path n : String) : List SFile :=
  (check_filename n).map (fun td => ⟨pathJoin path n, n, td.1, td.2⟩)

/-- The body of `scan_share_for_sensitive` at path `path`, iterating the
listing; a nested `dir` entry replays the function's entry sequence
(cancellation check, depth check from the joined path, then its own
loop).  Returns the collected files and the next step-counter value, or
`Except.error ()` if a cancellation exception unwound the walk. -/
def walkFS (md : Nat) (cancel : Nat → Bool) : FS → String → Nat → Except Unit (List SFile × Nat)
  | .nil, _, s => .ok ([], s)
  | .file n rest, path, s =>
    if cancel s then .error ()
    else if n = "." ∨ n = ".." then walkFS md cancel rest path (s + 1)
    else
      match walkFS md cancel rest path (s + 1) with
      | .error e => .error e
      | .ok (tl, s1) => .ok (fileMatches path n ++ tl, s1)
  | .dir n ch rest, path, s =>
    if cancel s then .error ()
    else if n = "." ∨ n = ".." then walkFS md cancel rest path (s + 1)
    else
      let full := pathJoin path n
      let inner : Except Unit (List SFile × Nat) :=
        if cancel (s + 1) then .error ()
        else if md < pathDepth full then .ok ([], s + 2)
        else walkFS md cancel ch full (s + 2)
      match inner with
      | .error e => .error e
      | .ok (sub, s1) =>
        match walkFS md cancel rest path s1 with
        | .error e => .error e
        | .ok (tl, s2) => .ok (sub ++ tl, s2)

/-- The top-level call `scan_share_for_sensitive(smb, share_name)` with the
default `path=''`: entry cancellation check, depth check on `''`, then the
loop over the root listing. -/
def scan_share_for_sensitive_run (md : Nat) (cancel : Nat → Bool) (root : FS) :
    Except Unit (List SFile × Nat) :=
  if cancel 0 then .error ()
  else if md < pathDepth "" then .ok ([], 1)
  else walkFS md cancel root "" 1

/-- The walk of an uncancelled run (the cancellation event never set). -/
def scan_share_for_sensitive (md : Nat) (root : FS) : List SFile :=
  match scan_share_for_sensitive_run md (fun _ => false) root with
  | .ok (l, _) => l
  | .error _ => []

/-- Modelled from the spec's words: the depth-capped walk with depth counted
from the share root (share root at depth 0, a directory at depth greater
than `md` not descended into).  `k` is the depth of the directory whose
listing is being traversed. -/
def specWalk (md : Nat) : FS → String → Nat → List SFile
  | .nil, _, _ => []
  | .file n rest, path, k =>
    (if n = "." ∨ n = ".." then [] else fileMatches path n) ++ specWalk md rest path k
  | .dir n ch rest, path, k =>
    (if n = "." ∨ n = ".." ∨ md < k + 1 then []
     else specWalk md ch (pathJoin path n) (k + 1)) ++ specWalk md rest path k

/-- Modelled from the spec's words: the whole-share walk, the share root at
depth 0. -/
def scanSensitiveSpec (md : Nat) (root : FS) : List SFile :=
  specWalk md root "" 0

/-- Well-formed listings: every entry name is nonempty and free of the path
separator (as SMB component names are). -/
def wfFS : FS → Bool
  | .nil => true
  | .file n rest => !(n = "") && n.data.all (fun c => !(c = '/')) && wfFS rest
  | .dir n ch rest =>
    !(n = "") && n.data.all (fun c => !(c = '/')) && wfFS ch && wfFS rest

/-- The tree of spec scenario 3: `a/b/c/d/e/f/key.pem`, a file at depth 6. -/
def exDeepTree : FS :=
  .dir "a" (.dir "b" (.dir "c" (.dir "d" (.dir "e" (.dir "f"
    (.file "key.pem" .nil) .nil) .nil) .nil) .nil) .nil) .nil

example : scan_share_for_sensitive 5 exDeepTree = [] := by decide

example : scan_share_for_sensitive 6 exDeepTree =
    [⟨"a/b/c/d/e/f/key.pem", "key.pem", "security", "PEM certificate"⟩] := by decide

example : wfFS exDeepTree = true := by decide

theorem no_slash_of_all (n : String) (h : n.data.all (fun c => !(c = '/')) = true) :
    '/' ∉ n.data := by
  intro hm
  have := List.all_eq_true.mp h '/' hm
  simp at this

theorem walkFS_no_cancel (md : Nat) (t : FS) :
    ∀ (path : String) (s k : Nat), path ≠ "" → wfFS t = true → pathDepth path = k →
      ∃ s2, walkFS md (fun _ => false) t path s = .ok (specWalk md t path k, s2) := by
  induction t with
  | nil => intro path s k _ _ _; exact ⟨s, rfl⟩
  | file n rest ih =>
    intro path s k hp hwf hk
    simp only [wfFS, Bool.and_eq_true] at hwf
    obtain ⟨s2, h2⟩ := ih path (s + 1) k hp hwf.2 hk
    by_cases hdot : n = "." ∨ n = ".."
    · exact ⟨s2, by simp [walkFS, hdot, h2, specWalk]⟩
    · exact ⟨s2, by simp [walkFS, hdot, h2, specWalk]⟩
  | dir n ch rest ihch ihrest =>
    intro path s k hp hwf hk
    simp only [wfFS, Bool.and_eq_true] at hwf
    obtain ⟨⟨⟨hn, hsl⟩, hwfch⟩, hwfrest⟩ := hwf
    by_cases hdot : n = "." ∨ n = ".."
    · obtain ⟨s2, h2⟩ := ihrest path (s + 1) k hp hwfrest hk
      have hg : n = "." ∨ n = ".." ∨ md < k + 1 := by tauto
      exact ⟨s2, by simp [walkFS, hdot, hg, h2, specWalk]⟩
    · have hns : '/' ∉ n.data := no_slash_of_all n hsl
      have hfull : pathDepth (pathJoin path n) = k + 1 := by
        rw [pathDepth_join path n hp hns, hk]
      have hfne : pathJoin path n ≠ "" := pathJoin_ne_empty path n hp
      by_cases hdepth : md < k + 1
      · obtain ⟨s2, h2⟩ := ihrest path (s + 2) k hp hwfrest hk
        have hg : n = "." ∨ n = ".." ∨ md < k + 1 := by tauto
        refine ⟨s2, ?_⟩
        simp [walkFS, hdot, hfull, hdepth, hg, h2, specWalk]
      · obtain ⟨s1, h1⟩ := ihch (pathJoin path n) (s + 2) (k + 1) hfne hwfch hfull
        obtain ⟨s2, h2⟩ := ihrest path s1 k hp hwfrest hk
        have hg : ¬ (n = "." ∨ n = ".." ∨ md < k + 1) := by tauto
        refine ⟨s2, ?_⟩
        simp [walkFS, hdot, hfull, hdepth, hg, h1, h2, specWalk]

theorem walkFS_root (md : Nat) (t : FS) (hmd : 1 ≤ md) :
    ∀ s : Nat, wfFS t = true →
      ∃ s2, walkFS md (fun _ => false) t "" s = .ok (specWalk md t "" 0, s2) := by
  induction t with
  | nil => intro s _; exact ⟨s, rfl⟩
  | file n rest ih =>
    intro s hwf
    simp only [wfFS, Bool.and_eq_true] at hwf
    obtain ⟨s2, h2⟩ := ih (s + 1) hwf.2
    by_cases hdot : n = "." ∨ n = ".."
    · exact ⟨s2, by simp [walkFS, hdot, h2, specWalk]⟩
    · exact ⟨s2, by simp [walkFS, hdot, h2, specWalk]⟩
  | dir n ch rest _ ihrest =>
    intro s hwf
    simp only [wfFS, Bool.and_eq_true] at hwf
    obtain ⟨⟨⟨hn, hsl⟩, hwfch⟩, hwfrest⟩ := hwf
    by_cases hdot : n = "." ∨ n = ".."
    · obtain ⟨s2, h2⟩ := ihrest (s + 1) hwfrest
      refine ⟨s2, ?_⟩
      rcases hdot with h | h <;> subst h <;> simp [walkFS, h2, specWalk]
    · have hn' : n ≠ "" := by
        intro h
        rw [h] at hn
        simp at hn
      have hns : '/' ∉ n.data := no_slash_of_all n hsl
      have hjoin : pathJoin "" n = n := rfl
      have hdepth : ¬ md < 1 := by omega
      have hg : ¬ (n = "." ∨ n = ".." ∨ md < 0 + 1) := by
        simp only [Nat.zero_add]
        tauto
      obtain ⟨s1, h1⟩ :=
        walkFS_no_cancel md ch n (s + 2) 1 hn' hwfch (pathDepth_single n hns)
      obtain ⟨s2, h2⟩ := ihrest s1 hwfrest
      refine ⟨s2, ?_⟩
      simp [walkFS, hdot, hg, hjoin, pathDepth_single n hns, hdepth, h1, h2, specWalk]

theorem specWalk_slash (md : Nat) (t : FS) :
    ∀ (path : String) (k : Nat), wfFS t = true →
      ((path = "" ∧ k = 0) ∨ (path ≠ "" ∧ slashCount path + 1 = k ∧ k ≤ md)) →
      ∀ sf ∈ specWalk md t path k, slashCount sf.path ≤ md := by
  induction t with
  | nil => intro path k _ _ sf h; simp [specWalk] at h
  | file n rest ih =>
    intro path k hwf hinv sf hsf
    simp only [wfFS, Bool.and_eq_true] at hwf
    obtain ⟨⟨hn, hsl⟩, hwfrest⟩ := hwf
    simp only [specWalk, List.mem_append] at hsf
    rcases hsf with hsf | hsf
    · by_cases hdot : n = "." ∨ n = ".."
      · simp [hdot] at hsf
      · simp only [if_neg hdot, fileMatches, List.mem_map] at hsf
        obtain ⟨td, _, rfl⟩ := hsf
        rcases hinv with ⟨hpe, hk0⟩ | ⟨hpne, hksl, hkle⟩
        · subst hpe
          rw [slashCount_join_root n (no_slash_of_all n hsl)]
          exact Nat.zero_le md
        · rw [slashCount_join path n hpne (no_slash_of_all n hsl), hksl]
          exact hkle
    · exact ih path k hwfrest hinv sf hsf
  | dir n ch rest ihch ihrest =>
    intro path k hwf hinv sf hsf
    simp only [wfFS, Bool.and_eq_true] at hwf
    obtain ⟨⟨⟨hn, hsl⟩, hwfch⟩, hwfrest⟩ := hwf
    simp only [specWalk, List.mem_append] at hsf
    rcases hsf with hsf | hsf
    · by_cases hguard : n = "." ∨ n = ".." ∨ md < k + 1
      · simp [hguard] at hsf
      · simp only [if_neg hguard] at hsf
        push_neg at hguard
        obtain ⟨_, _, hmd⟩ := hguard
        have hfne : pathJoin path n ≠ "" := by
          rcases hinv with ⟨hpe, _⟩ | ⟨hpne, _, _⟩
          · subst hpe
            rw [show pathJoin "" n = n from rfl]
            intro h
            rw [h] at hn
            simp at hn
          · exact pathJoin_ne_empty path n hpne
        have hslj : slashCount (pathJoin path n) + 1 = k + 1 := by
          rcases hinv with ⟨hpe, hk0⟩ | ⟨hpne, hksl, _⟩
          · subst hpe
            rw [slashCount_join_root n (no_slash_of_all n hsl), hk0]
          · rw [slashCount_join path n hpne (no_slash_of_all n hsl), hksl]
        exact ihch (pathJoin path n) (k + 1) hwfch
          (Or.inr ⟨hfne, hslj, by omega⟩) sf hsf
    · exact ihrest path k hwfrest hinv sf hsf

/-- Claim C3: the sensitive walk stops at exactly `MAX_SCAN_DEPTH` levels
below the share root (root at depth 0): on a well-formed tree and with the
validated `MAX_SCAN_DEPTH ≥ 1`, the walk equals the spec-side depth-capped
walk — which classifies a file at depth at most `md` and never descends into
a directory at depth greater than `md` — and every reported sensitive file
lies at depth (separator count) at most `md`. -/
theorem scan_sensitive_depth_cap (md : Nat) (root : FS)
    (hmd : 1 ≤ md) (hwf : wfFS root = true) :
    scan_share_for_sensitive md root = scanSensitiveSpec md root ∧
    ∀ sf ∈ scan_share_for_sensitive md root, slashCount sf.path ≤ md := by
  obtain ⟨s2, hrun⟩ := walkFS_root md root hmd 1 hwf
  have heq : scan_share_for_sensitive md root = scanSensitiveSpec md root := by
    unfold scan_share_for_sensitive scan_share_for_sensitive_run
    have h1 : ¬ md < pathDepth "" := by
      rw [pathDepth_empty]; omega
    simp [h1, hrun, scanSensitiveSpec]
  refine ⟨heq, ?_⟩
  rw [heq]
  exact specWalk_slash md root "" 0 hwf (Or.inl ⟨rfl, rfl⟩)

theorem scan_sensitive_depth_cap_witness :
    1 ≤ 5 ∧ wfFS exDeepTree = true ∧
    scan_share_for_sensitive 5 exDeepTree = scanSensitiveSpec 5 exDeepTree ∧
    scan_share_for_sensitive 5 exDeepTree = [] ∧
    scan_share_for_sensitive 6 exDeepTree =
      [⟨"a/b/c/d/e/f/key.pem", "key.pem", "security", "PEM certificate"⟩] := by
  have h5 := scan_sensitive_depth_cap 5 exDeepTree (by decide) (by decide)
  have h6 := scan_sensitive_depth_cap 6 exDeepTree (by decide) (by decide)
  exact ⟨by decide, by decide, h5.1, h5.1.trans (by decide), h6.1.trans (by decide)⟩

/-! ## Share records, per-share timeout, cancellation

`ShareRec` embeds `ShareDetails` (the record built per share and handed
to the store).  Counts are `Int` on the storage side because the store
defensively clamps them.

`_scan_share_with_timeout` runs `scan_worker` on a daemon thread; the
worker enqueues its completed `ShareDetails` — or `None` after any
exception — only when it finishes, and `result_queue.get(timeout=
SCAN_TIMEOUT)` either returns that value or raises `queue.Empty`, upon
which the function returns `None`.  `timedOut` abstracts "the worker did
not enqueue within `SCAN_TIMEOUT`"; whatever the worker had collected is
then unavailable to the caller.
-/

structure ShareRec where
  hostname : String
  share_name : String
  access_level : ShareAccess
  error_message : Option String
  root_files : List FileInfo
  share_permissions : List String
  total_files : Int
  total_dirs : Int
  hidden_files : Int
  sensitive_files : List SFile
  scan_time : String
deriving DecidableEq, Repr

/-- `ShareScanner._scan_share_with_timeout`. -/
def scan_share_with_timeout (timedOut : Bool) (worker : Option ShareRec) :
    Option ShareRec :=
  if timedOut then none else worker

/-- The per-share loop of `scan_host`: only non-`None` share results are
appended to `shares_details`. -/
def scan_host_shares : List (Bool × Option ShareRec) → List ShareRec
  | [] => []
  | p :: rest =>
    match scan_share_with_timeout p.1 p.2 with
    | some d => d :: scan_host_shares rest
    | none => scan_host_shares rest

/-- A share record carrying partial data (root counts and one sensitive
file already collected). -/
def exPartialShare : ShareRec :=
  ⟨"HOST1", "Public", .READ_ONLY, none, [], [], 2, 1, 0,
   [⟨"passwords.txt", "passwords.txt", "credential", "Credential-related file"⟩], "t0"⟩

/-- Claim C5 counterexample: when a share scan exceeds `SCAN_TIMEOUT`,
`_scan_share_with_timeout` returns `None` — even though the worker had a
record with partial data — and `scan_host` drops the share from the host's
results, so nothing is returned or persisted for it, contradicting the
claim. -/
theorem share_timeout_counterexample :
    scan_share_with_timeout true (some exPartialShare) = none ∧
    exPartialShare.sensitive_files ≠ [] ∧
    scan_host_shares [(true, some exPartialShare)] = [] := by decide

theorem scan_host_shares_append (a b : List (Bool × Option ShareRec)) :
    scan_host_shares (a ++ b) = scan_host_shares a ++ scan_host_shares b := by
  induction a with
  | nil => rfl
  | cons p rest ih =>
    simp only [List.cons_append, scan_host_shares]
    cases scan_share_with_timeout p.1 p.2 <;> simp [ih]

/-- Claim C5 (amended): when a single share scan exceeds `SCAN_TIMEOUT`,
`_scan_share_with_timeout` returns `None` whatever partial data the worker
had collected; `scan_host` then omits the share from the host's results, so
no record of the timed-out share is persisted.  Shares completing within
the deadline are kept unchanged. -/
theorem share_timeout_drops_record (w : Option ShareRec) (wc : ShareRec)
    (pre post : List (Bool × Option ShareRec)) :
    scan_share_with_timeout true w = none ∧
    scan_host_shares (pre ++ (true, w) :: post) =
      scan_host_shares pre ++ scan_host_shares post ∧
    scan_share_with_timeout false (some wc) = some wc := by
  refine ⟨rfl, ?_, rfl⟩
  rw [scan_host_shares_append]
  simp [scan_host_shares, scan_share_with_timeout]

/-! ## Cancellation (`scan_share_for_sensitive`, `_scan_host_wrapper`)

`scan_worker` catches every exception from the walk — the cancellation
unwind included — in its `except Exception` handler and enqueues `None`,
so a cancelled share produces no record.  `_scan_host_wrapper` is the
only place the cancellation event is set: when its `join(HOST_SCAN_TIMEOUT)`
expires it sets the event and returns a timeout error result, discarding
whatever the host scan had accumulated.  (In the source the raise of the
undefined name `ScanCancelled` produces a `NameError`; either exception
propagates out of the walk identically.)
-/

/-- The walk result as seen by `scan_worker`. -/
def scan_worker_sensitive : Except Unit (List SFile × Nat) → Option (List SFile)
  | .error _ => none
  | .ok (l, _) => some l

/-- The per-host result dict of `scan_host` / `_scan_host_wrapper`. -/
structure HostResult where
  success : Bool
  shares : Option (List ShareRec)
  error : Option String
deriving DecidableEq, Repr

/-- `ShareScanner._scan_host_wrapper`: on host-deadline expiry it sets the
cancellation event and returns a timeout error result regardless of what
the scan collected; otherwise it passes the scan result through. -/
def scan_host_wrapper (hostTimeout : Nat) (timedOut : Bool) (inner : HostResult) :
    HostResult :=
  if timedOut then
    ⟨false, none, some ("Operation timed out after " ++ toString hostTimeout ++ " seconds")⟩
  else inner

/-- A two-file root listing whose files both match sensitivity patterns. -/
def exCancelTree : FS := .file "password.txt" (.file "salary.xls" .nil)

/-- Claim C6 counterexample: with the cancellation signal raised from step 2
onward, the in-flight walk over `exCancelTree` unwinds with an exception
(`Except.error`) instead of yielding the match it had already accumulated —
the uncancelled run returns two matches, the cancelled one returns none of
them; the share worker turns the exception into a missing record; and the
host wrapper (host timeout is what sets the signal) reports an error result
with no shares, so cancellation is surfaced as an error, contradicting the
claim. -/
theorem scan_cancelled_counterexample :
    scan_share_for_sensitive_run 5 (fun i => decide (2 ≤ i)) exCancelTree =
      .error () ∧
    scan_share_for_sensitive_run 5 (fun _ => false) exCancelTree =
      .ok ([⟨"password.txt", "password.txt", "credential", "Credential-related file"⟩,
            ⟨"salary.xls", "salary.xls", "hr", "Salary information"⟩], 3) ∧
    scan_worker_sensitive
      (scan_share_for_sensitive_run 5 (fun i => decide (2 ≤ i)) exCancelTree) = none ∧
    (scan_host_wrapper 300 true ⟨true, some [exPartialShare], none⟩).success = false ∧
    (scan_host_wrapper 300 true ⟨true, some [exPartialShare], none⟩).error ≠ none := by
  refine ⟨rfl, rfl, rfl, rfl, by simp [scan_host_wrapper]⟩

/-- Claim C6 (amended): once the cancellation signal is set, the walk's next
cancellation check raises an exception that unwinds the in-flight walk,
discarding the matches accumulated so far; the share worker catches it and
records no result for that share; and the host wrapper — whose deadline
expiry is what sets the signal — returns an unsuccessful result carrying a
timeout error message and no shares, rather than partial results. -/
theorem scan_cancelled_behavior (md ht : Nat) (cancel : Nat → Bool) (root : FS)
    (n : String) (ch rest : FS) (path : String) (s : Nat)
    (hc0 : cancel 0 = true) (hcs : cancel s = true) :
    scan_share_for_sensitive_run md cancel root = .error () ∧
    walkFS md cancel (.file n rest) path s = .error () ∧
    walkFS md cancel (.dir n ch rest) path s = .error () ∧
    scan_worker_sensitive (scan_share_for_sensitive_run md cancel root) = none ∧
    ∀ inner : HostResult,
      (scan_host_wrapper ht true inner).success = false ∧
      (scan_host_wrapper ht true inner).shares = none ∧
      (scan_host_wrapper ht true inner).error ≠ none := by
  have hrun : scan_share_for_sensitive_run md cancel root = .error () := by
    simp [scan_share_for_sensitive_run, hc0]
  refine ⟨hrun, by simp [walkFS, hcs], by simp [walkFS, hcs],
    by rw [hrun]; rfl, fun inner => ⟨rfl, rfl, by simp [scan_host_wrapper]⟩⟩

theorem scan_cancelled_behavior_witness :
    scan_share_for_sensitive_run 5 (fun _ => true) exCancelTree = .error () ∧
    walkFS 5 (fun _ => true) (.file "a.txt" .nil) "" 7 = .error () := by
  have h := scan_cancelled_behavior 5 300 (fun _ => true) exCancelTree
    "a.txt" .nil .nil "" 7 rfl rfl
  exact ⟨h.1, h.2.1⟩

/-! ## Result store (`DatabaseHelper.store_results`)

Rows are modelled as the tuples the INSERT statements receive.  A
per-record insert failure is an oracle `insertFails`; the source's
per-record `except` logs and `continue`s, so a failing record contributes
nothing and the rest of the batch proceeds.  Share ids are the SERIAL
values returned by `RETURNING id`, assigned sequentially from `firstId`;
child rows reference them.  The sensitive files of one record are
inserted in slices of `self.batch_size`, all of them, with
`sensitive_count` accumulating the full length — modelled flat.
-/

structure ShareRow where
  hostname : String
  share_name : String
  access_level : String
  error_message : Option String
  total_files : Int
  total_dirs : Int
  hidden_files : Int
  scan_time : String
  session_id : Nat
deriving DecidableEq, Repr

structure RootRow where
  share_id : Nat
  file_name : String
  file_type : String
  file_size : Nat
  attributes : List String
  created_time : Option String
  modified_time : Option String
deriving DecidableEq, Repr

structure SensRow where
  share_id : Nat
  file_path : String
  file_name : String
  detection_type : String
deriving DecidableEq, Repr

structure StoreOut where
  stored_count : Nat
  sensitive_count : Nat
  shareRows : List ShareRow
  rootRows : List RootRow
  sensRows : List SensRow
  nextId : Nat
deriving DecidableEq, Repr

/-- The `shares` row built for one record: `str(..)[:255]` truncation on
hostname and share name, `max(0, ..)` clamping on the three counts. -/
def shareRowOf (session_id : Nat) (r : ShareRec) : ShareRow :=
  ⟨pyTrunc 255 r.hostname, pyTrunc 255 r.share_name, r.access_level.value,
   r.error_message, max 0 r.total_files, max 0 r.total_dirs, max 0 r.hidden_files,
   r.scan_time, session_id⟩

/-- The `root_files` rows of one record (`str(name)[:255]`). -/
def rootRowsOf (share_id : Nat) (r : ShareRec) : List RootRow :=
  r.root_files.map (fun rf =>
    ⟨share_id, pyTrunc 255 rf.name, rf.type, rf.size, rf.attributes, rf.created, rf.modified⟩)

/-- The `sensitive_files` rows of one record (`[:4096]`, `[:255]`, `[:50]`). -/
def sensRowsOf (share_id : Nat) (r : ShareRec) : List SensRow :=
  r.sensitive_files.map (fun sf =>
    ⟨share_id, pyTrunc 4096 sf.path, pyTrunc 255 sf.filename, pyTrunc 50 sf.type⟩)

/-- The inner `_store_batch` of `DatabaseHelper.store_results`. -/
def store_batch (insertFails : ShareRec → Bool) (session_id : Nat) :
    List ShareRec → Nat → StoreOut
  | [], firstId => ⟨0, 0, [], [], [], firstId⟩
  | r :: rest, firstId =>
    if insertFails r then store_batch insertFails session_id rest firstId
    else
      let out := store_batch insertFails session_id rest (firstId + 1)
      ⟨out.stored_count + 1, out.sensitive_count + r.sensitive_files.length,
       shareRowOf session_id r :: out.shareRows,
       rootRowsOf firstId r ++ out.rootRows,
       sensRowsOf firstId r ++ out.sensRows, out.nextId⟩

/-- `self.batch_size` of `DatabaseHelper` (maximum records per batch). -/
def db_batch_size : Nat := 5000

/-- `DatabaseHelper.store_results`: slices `results` into batches of
`self.batch_size` and sums the per-batch `(stored, sensitive)` pairs. -/
def store_results (insertFails : ShareRec → Bool) (session_id : Nat) :
    List ShareRec → Nat → StoreOut
  | [], firstId => ⟨0, 0, [], [], [], firstId⟩
  | r :: rest, firstId =>
    let first := store_batch insertFails session_id ((r :: rest).take db_batch_size) firstId
    let remainder :=
      store_results insertFails session_id ((r :: rest).drop db_batch_size) first.nextId
    ⟨first.stored_count + remainder.stored_count,
     first.sensitive_count + remainder.sensitive_count,
     first.shareRows ++ remainder.shareRows,
     first.rootRows ++ remainder.rootRows,
     first.sensRows ++ remainder.sensRows, remainder.nextId⟩
termination_by l _ => l.length
decreasing_by
  simp only [List.length_drop, List.length_cons, db_batch_size]
  omega

theorem store_batch_append (f : ShareRec → Bool) (sid : Nat) (a b : List ShareRec) (i : Nat) :
    store_batch f sid (a ++ b) i =
      ⟨(store_batch f sid a i).stored_count +
          (store_batch f sid b (store_batch f sid a i).nextId).stored_count,
       (store_batch f sid a i).sensitive_count +
          (store_batch f sid b (store_batch f sid a i).nextId).sensitive_count,
       (store_batch f sid a i).shareRows ++
          (store_batch f sid b (store_batch f sid a i).nextId).shareRows,
       (store_batch f sid a i).rootRows ++
          (store_batch f sid b (store_batch f sid a i).nextId).rootRows,
       (store_batch f sid a i).sensRows ++
          (store_batch f sid b (store_batch f sid a i).nextId).sensRows,
       (store_batch f sid b (store_batch f sid a i).nextId).nextId⟩ := by
  induction a generalizing i with
  | nil => simp [store_batch]
  | cons r rest ih =>
    by_cases hf : f r = true
    · simp only [List.cons_append, store_batch, hf, if_true]
      exact ih i
    · have hf' : f r = false := Bool.of_not_eq_true hf
      simp only [List.cons_append, store_batch, hf', Bool.false_eq_true, if_false,
        List.append_eq]
      rw [ih (i + 1)]
      simp [Nat.add_assoc, List.append_assoc, Nat.add_comm, Nat.add_left_comm]

theorem store_results_eq_batch (f : ShareRec → Bool) (sid : Nat) :
    ∀ (n : Nat) (l : List ShareRec) (i : Nat), l.length ≤ n →
      store_results f sid l i = store_batch f sid l i := by
  intro n
  induction n with
  | zero =>
    intro l i hl
    have : l = [] := List.eq_nil_of_length_eq_zero (Nat.le_zero.mp hl)
    subst this
    simp [store_results, store_batch]
  | succ n ih =>
    intro l i hl
    cases l with
    | nil => simp [store_results, store_batch]
    | cons r rest =>
      have hlen : ((r :: rest).drop db_batch_size).length ≤ n := by
        simp only [List.length_drop, List.length_cons, db_batch_size]
        simp only [List.length_cons] at hl
        omega
      simp only [store_results]
      rw [ih _ _ hlen, ← store_batch_append, List.take_append_drop]

theorem store_batch_stored (f : ShareRec → Bool) (sid : Nat) :
    ∀ (l : List ShareRec) (i : Nat),
      (store_batch f sid l i).stored_count = (l.filter (fun r => !f r)).length ∧
      (store_batch f sid l i).sensitive_count =
        ((l.filter (fun r => !f r)).map (fun r => r.sensitive_files.length)).sum ∧
      (store_batch f sid l i).shareRows =
        (l.filter (fun r => !f r)).map (shareRowOf sid) := by
  intro l
  induction l with
  | nil => intro i; exact ⟨rfl, rfl, rfl⟩
  | cons r rest ih =>
    intro i
    by_cases hf : f r = true
    · simpa [store_batch, hf, List.filter_cons] using ih i
    · have hf' : f r = false := Bool.of_not_eq_true hf
      have h := ih (i + 1)
      simp [store_batch, hf', List.filter_cons, h.1, h.2.1, h.2.2, Nat.add_comm]

theorem store_batch_sens_bound (f : ShareRec → Bool) (sid : Nat) :
    ∀ (l : List ShareRec) (i : Nat), ∀ row ∈ (store_batch f sid l i).sensRows,
      row.file_path.length ≤ 4096 ∧ row.file_name.length ≤ 255 ∧
        row.detection_type.length ≤ 50 := by
  intro l
  induction l with
  | nil => intro i row h; simp [store_batch] at h
  | cons r rest ih =>
    intro i row h
    by_cases hf : f r = true
    · rw [store_batch] at h
      simp only [hf, if_true] at h
      exact ih i row h
    · have hf' : f r = false := Bool.of_not_eq_true hf
      rw [store_batch] at h
      simp only [hf', Bool.false_eq_true, if_false, List.mem_append] at h
      rcases h with h | h
      · simp only [sensRowsOf, List.mem_map] at h
        obtain ⟨sf, _, rfl⟩ := h
        exact ⟨pyTrunc_length_le _ _, pyTrunc_length_le _ _, pyTrunc_length_le _ _⟩
      · exact ih (i + 1) row h

theorem store_batch_root_bound (f : ShareRec → Bool) (sid : Nat) :
    ∀ (l : List ShareRec) (i : Nat), ∀ row ∈ (store_batch f sid l i).rootRows,
      row.file_name.length ≤ 255 := by
  intro l
  induction l with
  | nil => intro i row h; simp [store_batch] at h
  | cons r rest ih =>
    intro i row h
    by_cases hf : f r = true
    · rw [store_batch] at h
      simp only [hf, if_true] at h
      exact ih i row h
    · have hf' : f r = false := Bool.of_not_eq_true hf
      rw [store_batch] at h
      simp only [hf', Bool.false_eq_true, if_false, List.mem_append] at h
      rcases h with h | h
      · simp only [rootRowsOf, List.mem_map] at h
        obtain ⟨rf, _, rfl⟩ := h
        exact pyTrunc_length_le _ _
      · exact ih (i + 1) row h

/-- Claim C8: for every batch handed to `store_results`: string fields are
truncated to their column limits (hostname, share name, file name to 255,
file path to 4096, detection type to 50), the three counts are clamped to
be non-negative, a record whose insert fails is skipped without aborting
the rest of the batch (the share rows written are exactly those of the
non-failing records, in order), and the operation returns the pair
(shares written, sensitive files written). -/
theorem store_results_spec (insertFails : ShareRec → Bool) (sid firstId : Nat)
    (results : List ShareRec) :
    (store_results insertFails sid results firstId).stored_count =
        (results.filter (fun r => !insertFails r)).length ∧
    (store_results insertFails sid results firstId).sensitive_count =
        ((results.filter (fun r => !insertFails r)).map
          (fun r => r.sensitive_files.length)).sum ∧
    (store_results insertFails sid results firstId).shareRows =
        (results.filter (fun r => !insertFails r)).map (shareRowOf sid) ∧
    (∀ row ∈ (store_results insertFails sid results firstId).shareRows,
        row.hostname.length ≤ 255 ∧ row.share_name.length ≤ 255 ∧
        0 ≤ row.total_files ∧ 0 ≤ row.total_dirs ∧ 0 ≤ row.hidden_files) ∧
    (∀ row ∈ (store_results insertFails sid results firstId).sensRows,
        row.file_path.length ≤ 4096 ∧ row.file_name.length ≤ 255 ∧
        row.detection_type.length ≤ 50) ∧
    (∀ row ∈ (store_results insertFails sid results firstId).rootRows,
        row.file_name.length ≤ 255) := by
  rw [store_results_eq_batch insertFails sid results.length results firstId le_rfl]
  have h := store_batch_stored insertFails sid results firstId
  refine ⟨h.1, h.2.1, h.2.2, ?_, store_batch_sens_bound insertFails sid results firstId,
    store_batch_root_bound insertFails sid results firstId⟩
  intro row hrow
  rw [h.2.2] at hrow
  simp only [List.mem_map] at hrow
  obtain ⟨r, _, rfl⟩ := hrow
  exact ⟨pyTrunc_length_le _ _, pyTrunc_length_le _ _, le_max_left _ _,
    le_max_left _ _, le_max_left _ _⟩

/-! ## Orchestrator batching (`ShareScanner.scan_network`)

`scan_network` accumulates the shares of successfully completed hosts into
`storage_batch` and calls `self.db_helper.store_results(storage_batch)`
when the buffer reaches `self.batch_size` (1000), and once more at the
end for the residual buffer.  `DatabaseHelper.store_results` is declared
as `store_results(self, results, session_id)` with no default for
`session_id`; positional binding of the call is modelled explicitly, so
the call with a single argument is a `TypeError` — which the surrounding
`except Exception` handlers catch and log, leaving the buffer as it was.
`storedBatches` is a ghost log of the buffers actually handed over.
-/

/-- An actual argument of a `store_results` call. -/
inductive StoreArg where
  | results : List ShareRec → StoreArg
  | sessionId : Nat → StoreArg

/-- Positional binding of `DatabaseHelper.store_results(self, results,
session_id)`: both parameters are required, so any other argument list
raises a `TypeError` at call time. -/
def call_store_results (insertFails : ShareRec → Bool) (firstId : Nat) :
    List StoreArg → Except String (Nat × Nat)
  | [StoreArg.results rs, StoreArg.sessionId sid] =>
    .ok ((store_results insertFails sid rs firstId).stored_count,
      (store_results insertFails sid rs firstId).sensitive_count)
  | _ => .error "TypeError: store_results() missing 1 required positional argument: session_id"

/-- The orchestrator's accumulator state. -/
structure NetState where
  total_shares_processed : Nat
  total_sensitive_files : Nat
  storage_batch : List ShareRec
  storedBatches : List (List ShareRec)
deriving Repr

/-- `self.batch_size` of `ShareScanner`. -/
def scanner_batch_size : Nat := 1000

/-- Processing of one completed host future inside `scan_network`'s loop. -/
def scan_network_step (insertFails : ShareRec → Bool) (st : NetState) (r : HostResult) :
    NetState :=
  if r.success then
    match r.shares with
    | some shares =>
      if 0 < shares.length then
        let buf := st.storage_batch ++ shares
        if scanner_batch_size ≤ buf.length then
          match call_store_results insertFails 1 [StoreArg.results buf] with
          | .ok (sc, sv) =>
            ⟨st.total_shares_processed + sc, st.total_sensitive_files + sv, [],
             st.storedBatches ++ [buf]⟩
          | .error _ => { st with storage_batch := buf }
        else { st with storage_batch := buf }
      else st
    | none => st
  else st

/-- `ShareScanner.scan_network` over the completed host results (in
completion order), its final residual flush included. -/
def scan_network (insertFails : ShareRec → Bool) (hostResults : List HostResult) :
    NetState :=
  let st := hostResults.foldl (scan_network_step insertFails) ⟨0, 0, [], []⟩
  if st.storage_batch.isEmpty then st
  else
    match call_store_results insertFails 1 [StoreArg.results st.storage_batch] with
    | .ok (sc, sv) =>
      ⟨st.total_shares_processed + sc, st.total_sensitive_files + sv, [],
       st.storedBatches ++ [st.storage_batch]⟩
    | .error _ => st

/-- Claim C4 (refuted by the code): no buffer is ever handed to the store.
Every `store_results` attempt in `scan_network` — the batch-full flush and
the residual flush alike — passes a single argument where
`DatabaseHelper.store_results` requires `(results, session_id)`, so the
call raises `TypeError` before any record reaches the store; the handlers
catch it, and the totals remain zero.  In particular a run with one
successful host carrying one share record hands nothing to the store,
while the claim requires that record to be handed exactly once. -/
theorem scan_network_stores_nothing (insertFails : ShareRec → Bool)
    (hostResults : List HostResult) :
    (scan_network insertFails hostResults).storedBatches = [] ∧
    (scan_network insertFails hostResults).total_shares_processed = 0 ∧
    (scan_network insertFails hostResults).total_sensitive_files = 0 ∧
    (scan_network insertFails [⟨true, some [exPartialShare], none⟩]).storedBatches = [] := by
  have hcall : ∀ buf, call_store_results insertFails 1 [StoreArg.results buf] =
      .error "TypeError: store_results() missing 1 required positional argument: session_id" :=
    fun _ => rfl
  have hstep : ∀ st r, (scan_network_step insertFails st r).storedBatches = st.storedBatches ∧
      (scan_network_step insertFails st r).total_shares_processed =
        st.total_shares_processed ∧
      (scan_network_step insertFails st r).total_sensitive_files =
        st.total_sensitive_files := by
    intro st r
    unfold scan_network_step
    split
    · cases hsh : r.shares with
      | none => exact ⟨rfl, rfl, rfl⟩
      | some shares =>
        simp only
        split
        · rw [hcall]
          split <;> exact ⟨rfl, rfl, rfl⟩
        · exact ⟨rfl, rfl, rfl⟩
    · exact ⟨rfl, rfl, rfl⟩
  have hfold : ∀ (l : List HostResult) (st : NetState),
      (l.foldl (scan_network_step insertFails) st).storedBatches = st.storedBatches ∧
      (l.foldl (scan_network_step insertFails) st).total_shares_processed =
        st.total_shares_processed ∧
      (l.foldl (scan_network_step insertFails) st).total_sensitive_files =
        st.total_sensitive_files := by
    intro l
    induction l with
    | nil => intro st; exact ⟨rfl, rfl, rfl⟩
    | cons r rest ih =>
      intro st
      have h1 := hstep st r
      have h2 := ih (scan_network_step insertFails st r)
      simp only [List.foldl_cons]
      exact ⟨h2.1.trans h1.1, h2.2.1.trans h1.2.1, h2.2.2.trans h1.2.2⟩
  have hmain : ∀ l : List HostResult,
      (scan_network insertFails l).storedBatches = [] ∧
      (scan_network insertFails l).total_shares_processed = 0 ∧
      (scan_network insertFails l).total_sensitive_files = 0 := by
    intro l
    have h := hfold l ⟨0, 0, [], []⟩
    unfold scan_network
    simp only [hcall, ite_self]
    exact ⟨h.1, h.2.1, h.2.2⟩
  exact ⟨(hmain hostResults).1, (hmain hostResults).2.1, (hmain hostResults).2.2,
    (hmain _).1⟩

/-! ## Directory computer search (`LDAPHelper.get_computers`)

The paged-search generator is modelled as the finite list of entries it
would yield; the wall-clock deadline check `time.time() - start_time >
self.search_timeout` is a boolean oracle `timeoutAt` indexed by the
iteration counter.  One iteration: deadline check (`break`), cap check
`total_processed >= self.max_computers` (`break`), then hostname
extraction (`dNSHostName or name`, Python falsiness: missing or empty
string), append to `batch` (flushed into `entry_list` every `page_size`),
`total_processed += 1`.  After the loop the residual `batch` is appended;
a `break` reaches the same flush, returning the partial list rather than
raising. -/

structure LdapEntry where
  hasAttributes : Bool
  dNSHostName : Option String
  name : Option String
deriving DecidableEq, Repr

/-- Python falsiness of an attribute value (`None` or `""`). -/
def attrFalsy : Option String → Bool
  | none => true
  | some s => s.isEmpty

/-- `entry['attributes'].get('dNSHostName') or entry['attributes'].get('name')`,
followed by the `if hostname:` guard. -/
def entry_hostname (e : LdapEntry) : Option String :=
  if e.hasAttributes then
    let h := if attrFalsy e.dNSHostName then e.name else e.dNSHostName
    match h with
    | some s => if s.isEmpty then none else some s
    | none => none
  else none

/-- The iteration loop of `get_computers`: arguments are the remaining
entries, the iteration index, `total_processed`, `entry_list` and `batch`. -/
def get_computers_loop (timeoutAt : Nat → Bool) (maxComputers pageSize : Nat) :
    List LdapEntry → Nat → Nat → List String → List String → List String
  | [], _, _, entryList, batch => entryList ++ batch
  | e :: rest, i, tp, entryList, batch =>
    if timeoutAt i then entryList ++ batch
    else if maxComputers ≤ tp then entryList ++ batch
    else
      match entry_hostname e with
      | some h =>
        let batch2 := batch ++ [h]
        if pageSize ≤ batch2.length then
          get_computers_loop timeoutAt maxComputers pageSize rest (i + 1) (tp + 1)
            (entryList ++ batch2) []
        else
          get_computers_loop timeoutAt maxComputers pageSize rest (i + 1) (tp + 1)
            entryList batch2
      | none => get_computers_loop timeoutAt maxComputers pageSize rest (i + 1) tp
          entryList batch

/-- `LDAPHelper.get_computers` (the cooperative-limit path). -/
def get_computers (timeoutAt : Nat → Bool) (maxComputers pageSize : Nat)
    (entries : List LdapEntry) : List String :=
  get_computers_loop timeoutAt maxComputers pageSize entries 0 0 [] []

/-- The hostnames the loop still collects from `entries` starting at
iteration `i` with `tp` already processed. -/
def collect_hostnames (timeoutAt : Nat → Bool) (maxComputers : Nat) :
    List LdapEntry → Nat → Nat → List String
  | [], _, _ => []
  | e :: rest, i, tp =>
    if timeoutAt i then []
    else if maxComputers ≤ tp then []
    else
      match entry_hostname e with
      | some h => h :: collect_hostnames timeoutAt maxComputers rest (i + 1) (tp + 1)
      | none => collect_hostnames timeoutAt maxComputers rest (i + 1) tp

theorem get_computers_loop_eq (timeoutAt : Nat → Bool) (maxComputers pageSize : Nat) :
    ∀ (entries : List LdapEntry) (i tp : Nat) (entryList batch : List String),
      get_computers_loop timeoutAt maxComputers pageSize entries i tp entryList batch =
        entryList ++ batch ++ collect_hostnames timeoutAt maxComputers entries i tp := by
  intro entries
  induction entries with
  | nil => intro i tp el b; simp [get_computers_loop, collect_hostnames]
  | cons e rest ih =>
    intro i tp el b
    simp only [get_computers_loop, collect_hostnames]
    by_cases ht : timeoutAt i = true
    · simp [ht]
    · have ht' : timeoutAt i = false := Bool.of_not_eq_true ht
      simp only [ht', Bool.false_eq_true, if_false]
      by_cases hc : maxComputers ≤ tp
      · simp [hc]
      · simp only [hc, if_false]
        cases hh : entry_hostname e with
        | some h =>
          simp only
          split
          · rw [ih]
            simp
          · rw [ih]
            simp
        | none => exact ih (i + 1) tp el b

theorem collect_hostnames_take (timeoutAt : Nat → Bool) (maxComputers : Nat) :
    ∀ (entries : List LdapEntry) (i tp : Nat),
      ∃ k, collect_hostnames timeoutAt maxComputers entries i tp =
        (entries.filterMap entry_hostname).take k := by
  intro entries
  induction entries with
  | nil => intro i tp; exact ⟨0, rfl⟩
  | cons e rest ih =>
    intro i tp
    simp only [collect_hostnames]
    by_cases ht : timeoutAt i = true
    · exact ⟨0, by simp [ht]⟩
    · have ht' : timeoutAt i = false := Bool.of_not_eq_true ht
      by_cases hc : maxComputers ≤ tp
      · exact ⟨0, by simp [ht', hc]⟩
      · cases hh : entry_hostname e with
        | some h =>
          obtain ⟨k, hk⟩ := ih (i + 1) (tp + 1)
          refine ⟨k + 1, ?_⟩
          simp [ht', hc, hh, List.filterMap_cons, hk]
        | none =>
          obtain ⟨k, hk⟩ := ih (i + 1) tp
          refine ⟨k, ?_⟩
          simp [ht', hc, hh, List.filterMap_cons, hk]

theorem collect_hostnames_length (maxComputers : Nat) :
    ∀ (entries : List LdapEntry) (i tp : Nat),
      (collect_hostnames (fun _ => false) maxComputers entries i tp).length =
        min (entries.filterMap entry_hostname).length (maxComputers - tp) := by
  intro entries
  induction entries with
  | nil => intro i tp; simp [collect_hostnames]
  | cons e rest ih =>
    intro i tp
    simp only [collect_hostnames, Bool.false_eq_true, if_false]
    by_cases hc : maxComputers ≤ tp
    · have : maxComputers - tp = 0 := Nat.sub_eq_zero_of_le hc
      simp [hc, this]
    · simp only [hc, if_false]
      cases hh : entry_hostname e with
      | some h =>
        simp only [List.filterMap_cons, hh, List.length_cons, List.length_nil]
        rw [ih (i + 1) (tp + 1)]
        omega
      | none =>
        simp only [List.filterMap_cons, hh]
        exact ih (i + 1) tp

/-- Claim C7: `get_computers` always returns the partial list collected so
far — a `take`-prefix of the hostnames resolvable from the yielded entries,
cut off by the wall-clock deadline or the hard cap rather than raised as an
error — and when the deadline never fires and the directory holds more than
`MAX_COMPUTERS` resolvable hostnames, it yields exactly `MAX_COMPUTERS` of
them. -/
theorem get_computers_limits (timeoutAt : Nat → Bool) (maxComputers pageSize : Nat)
    (entries : List LdapEntry) :
    (∃ k, get_computers timeoutAt maxComputers pageSize entries =
        (entries.filterMap entry_hostname).take k) ∧
    ((∀ i, timeoutAt i = false) →
      maxComputers < (entries.filterMap entry_hostname).length →
      (get_computers timeoutAt maxComputers pageSize entries).length = maxComputers) := by
  constructor
  · obtain ⟨k, hk⟩ := collect_hostnames_take timeoutAt maxComputers entries 0 0
    exact ⟨k, by rw [get_computers, get_computers_loop_eq]; simpa using hk⟩
  · intro hto hmore
    have hfun : timeoutAt = (fun _ => false) := funext hto
    rw [get_computers, get_computers_loop_eq, hfun]
    simp only [List.nil_append]
    rw [collect_hostnames_length]
    omega

theorem get_computers_limits_witness :
    (∃ k, get_computers (fun _ => false) 2 5000
        [⟨true, some "pc1.dom", none⟩, ⟨true, none, some "PC2"⟩,
         ⟨false, none, none⟩, ⟨true, some "pc3.dom", none⟩] =
        ((([⟨true, some "pc1.dom", none⟩, ⟨true, none, some "PC2"⟩,
            ⟨false, none, none⟩, ⟨true, some "pc3.dom", none⟩] :
              List LdapEntry).filterMap entry_hostname).take k)) ∧
    (get_computers (fun _ => false) 2 5000
        [⟨true, some "pc1.dom", none⟩, ⟨true, none, some "PC2"⟩,
         ⟨false, none, none⟩, ⟨true, some "pc3.dom", none⟩]).length = 2 := by
  have h := get_computers_limits (fun _ => false) 2 5000
    [⟨true, some "pc1.dom", none⟩, ⟨true, none, some "PC2"⟩,
     ⟨false, none, none⟩, ⟨true, some "pc3.dom", none⟩]
  exact ⟨h.1, h.2 (fun _ => rfl) (by decide)⟩

end PyShares
